import Mathlib

/-!
Verification of the chunking algorithm and result-assembly contract of
`src/src/main.ts` (ai-content-crawler).

The TypeScript source is embedded shallowly over `List Char`:

* `sentSplit`    models `text.split(/(?<=[.!?])\s+/)` (line 38);
* `chunkStep` / `chunkFinish` / `chunkText` model the accumulation loop of
  `chunkText` (lines 36-65), including the JavaScript quirk that
  `Array.prototype.slice(-0)` returns the whole array;
* `jsSplitWs`    models `s.split(/\s+/)` with JavaScript semantics (an empty
  string splits to `[""]`, leading/trailing separators produce empty pieces);
* `wsTrim`       models `String.prototype.trim`;
* `collapseWsAux` / `plainTextOf` / `wordCount` model lines 119 and 134;
* `assemblePage` models the output-format field selection of the request
  handler (lines 121-147).

The whitespace class is modelled on the common ASCII whitespace characters.
-/

namespace Crawler

/-- Whitespace test used by the regex class `\s`, modelled on the common
ASCII whitespace characters (space, tab, line feed, carriage return). -/
def isWs (c : Char) : Bool := c = ' ' || c = '\t' || c = '\n' || c = '\r'

/-- Sentence-terminal punctuation of the split regex `(?<=[.!?])` in
`chunkText` (src/src/main.ts line 38). -/
def isTerm (c : Char) : Bool := c = '.' || c = '!' || c = '?'

/-- Whether the last character consumed so far (head of the reversed
accumulator) is sentence-terminal punctuation. -/
def headIsTerm : List Char → Bool
  | [] => false
  | p :: _ => isTerm p

/-- Left half of `String.prototype.trim`. -/
def wsTrimLeft (l : List Char) : List Char := l.dropWhile (fun c => isWs c)

/-- Right half of `String.prototype.trim`. -/
def wsTrimRight (l : List Char) : List Char :=
  (l.reverse.dropWhile (fun c => isWs c)).reverse

/-- `String.prototype.trim`: strip whitespace at both ends. -/
def wsTrim (l : List Char) : List Char := wsTrimLeft (wsTrimRight l)

/-- `text.split(/(?<=[.!?])\s+/)`: a maximal whitespace run that immediately
follows terminal punctuation separates two pieces and is consumed.  `acc`
holds the piece being built (reversed); the flag is true while the tail of a
separator run is being consumed. -/
def sentSplitAux : List Char → List Char → Bool → List (List Char)
  | [], acc, _ => [acc.reverse]
  | c :: cs, acc, inSep =>
    if inSep && isWs c then sentSplitAux cs acc true
    else if isWs c && headIsTerm acc then acc.reverse :: sentSplitAux cs [] true
    else sentSplitAux cs (c :: acc) false

/-- The sentence segmentation of src/src/main.ts line 38. -/
def sentSplit (l : List Char) : List (List Char) := sentSplitAux l [] false

/-- `s.split(/\s+/)` with JavaScript semantics: every maximal whitespace run
separates two pieces, so `""` gives `[""]` and leading or trailing runs
produce empty pieces.  The flag is true while a run is being consumed. -/
def jsSplitWsAux : List Char → List Char → Bool → List (List Char)
  | [], acc, _ => [acc.reverse]
  | c :: cs, acc, inRun =>
    if isWs c then
      if inRun then jsSplitWsAux cs acc true
      else acc.reverse :: jsSplitWsAux cs [] true
    else jsSplitWsAux cs (c :: acc) false

/-- `s.split(/\s+/)` (src/src/main.ts lines 50 and 134). -/
def jsSplitWs (l : List Char) : List (List Char) := jsSplitWsAux l [] false

/-- `xs.slice(-k)` in JavaScript: `slice(-0)` is `slice(0)`, the whole
array; for `k > 0` it is the trailing `min k xs.length` elements. -/
def jsSliceNeg (xs : List (List Char)) (k : Nat) : List (List Char) :=
  if k = 0 then xs else xs.drop (xs.length - k)

/-- `Array.prototype.join(' ')`. -/
def joinSpace : List (List Char) → List Char
  | [] => []
  | [x] => x
  | x :: y :: rest => x ++ ' ' :: joinSpace (y :: rest)

/-- One emitted chunk: `{text, index, metadata: {charCount}}`
(src/src/main.ts lines 44-48). -/
structure Chunk where
  text : List Char
  index : Nat
  charCount : Nat
deriving DecidableEq

/-- The loop state of `chunkText`: emitted chunks, the accumulating buffer
`current`, and the emission counter `index`. -/
structure ChunkState where
  chunks : List Chunk
  current : List Char
  index : Nat
deriving DecidableEq

/-- The body of the `for (const sentence of sentences)` loop of `chunkText`
(src/src/main.ts lines 42-56).  The close test is
`current.length + sentence.length > chunkSize && current.length > 0`; on a
close the next buffer is seeded with
`current.split(/\s+/).slice(-Math.floor(overlap / 5)).join(' ') + ' ' + sentence`. -/
def chunkStep (chunkSize overlap : Nat) (st : ChunkState) (sentence : List Char) :
    ChunkState :=
  if chunkSize < st.current.length + sentence.length ∧ 0 < st.current.length then
    { chunks := st.chunks ++
        [{ text := wsTrim st.current, index := st.index,
           charCount := (wsTrim st.current).length }]
      current := joinSpace (jsSliceNeg (jsSplitWs st.current) (overlap / 5)) ++
        ' ' :: sentence
      index := st.index + 1 }
  else
    { st with current := st.current ++ (if st.current = [] then [] else [' ']) ++ sentence }

/-- The final `if (current.trim())` emission of `chunkText`
(src/src/main.ts lines 57-63). -/
def chunkFinish (st : ChunkState) : List Chunk :=
  if wsTrim st.current = [] then st.chunks
  else st.chunks ++
    [{ text := wsTrim st.current, index := st.index,
       charCount := (wsTrim st.current).length }]

/-- `chunkText` run on an already segmented list of sentence units. -/
def chunkUnits (chunkSize overlap : Nat) (us : List (List Char)) : List Chunk :=
  chunkFinish (us.foldl (chunkStep chunkSize overlap)
    { chunks := [], current := [], index := 0 })

/-- `chunkText(text, chunkSize, overlap)` (src/src/main.ts lines 36-65). -/
def chunkText (text : List Char) (chunkSize overlap : Nat) : List Chunk :=
  chunkUnits chunkSize overlap (sentSplit text)

/-- Whether the text contains sentence-terminal punctuation immediately
followed by a whitespace character, i.e. whether the split regex of line 38
can match anywhere. -/
def hasSentenceBoundary : List Char → Bool
  | a :: b :: rest => (isTerm a && isWs b) || hasSentenceBoundary (b :: rest)
  | _ => false

/-- The maximal non-whitespace runs of a text, in order: its
whitespace-delimited words. -/
def wordsAux : List Char → List Char → List (List Char)
  | [], acc => if acc = [] then [] else [acc.reverse]
  | c :: cs, acc =>
    if isWs c then
      if acc = [] then wordsAux cs []
      else acc.reverse :: wordsAux cs []
    else wordsAux cs (c :: acc)

/-- The whitespace-delimited words of a text (no empty pieces, unlike
`jsSplitWs`). -/
def wordsOf (l : List Char) : List (List Char) := wordsAux l []

/-- `s.replace(/\s+/g, ' ')`: replace every maximal whitespace run by a
single space. -/
def collapseWsAux : List Char → Bool → List Char
  | [], _ => []
  | c :: cs, inRun =>
    if isWs c then
      if inRun then collapseWsAux cs true
      else ' ' :: collapseWsAux cs true
    else c :: collapseWsAux cs false

/-- `article.textContent.replace(/\s+/g, ' ').trim()`
(src/src/main.ts line 119). -/
def plainTextOf (textContent : List Char) : List Char :=
  wsTrim (collapseWsAux textContent false)

/-- `plainText.split(/\s+/).length` (src/src/main.ts line 134). -/
def wordCount (textContent : List Char) : Nat :=
  (jsSplitWs (plainTextOf textContent)).length

/-- The `outputFormat` configuration value. -/
inductive OutputFormat
  | markdown
  | text
  | json
deriving DecidableEq

/-- The fields of the per-page record that depend on the output format and
chunking configuration (src/src/main.ts lines 121-147). -/
structure PageResult where
  content : List Char
  markdown : Option (List Char)
  wordCount : Nat
  chunks : Option (List Chunk)
deriving DecidableEq

/-- The request handler's record assembly (src/src/main.ts lines 121-147):
`content` is the plain text only for the `text` format, `markdown` is set
for the `markdown` and `json` formats, and when `chunkSize > 0` the chunker
is fed the markdown string exactly for the `markdown` format and the
collapsed plain text otherwise. -/
def assemblePage (outputFormat : OutputFormat) (md textContent : List Char)
    (chunkSize chunkOverlap : Nat) : PageResult :=
  { content := if outputFormat = OutputFormat.text then plainTextOf textContent else []
    markdown :=
      if outputFormat = OutputFormat.markdown ∨ outputFormat = OutputFormat.json then
        some md
      else none
    wordCount := wordCount textContent
    chunks :=
      if 0 < chunkSize then
        some (chunkText
          (if outputFormat = OutputFormat.markdown then md else plainTextOf textContent)
          chunkSize chunkOverlap)
      else none }

/-- The chunker as the specification describes it, used to compare the code
against the spec's wording: the close test counts the single joining space
(`buffer.length + 1 + unit.length > maxChunkChars`), and the carry-over is
the trailing `floor(overlapChars / 5)` whitespace-delimited words of the
closed buffer (none when that count is zero). -/
def chunkStepSpec (chunkSize overlap : Nat) (st : ChunkState) (sentence : List Char) :
    ChunkState :=
  if 0 < st.current.length ∧ chunkSize < st.current.length + 1 + sentence.length then
    { chunks := st.chunks ++
        [{ text := wsTrim st.current, index := st.index,
           charCount := (wsTrim st.current).length }]
      current :=
        joinSpace ((wordsOf st.current).drop ((wordsOf st.current).length - overlap / 5)) ++
        ' ' :: sentence
      index := st.index + 1 }
  else
    { st with current := st.current ++ (if st.current = [] then [] else [' ']) ++ sentence }

/-- The whole chunker as the specification describes it (same segmentation
and final emission, spec-worded step). -/
def chunkTextSpec (text : List Char) (chunkSize overlap : Nat) : List Chunk :=
  chunkFinish ((sentSplit text).foldl (chunkStepSpec chunkSize overlap)
    { chunks := [], current := [], index := 0 })

/-! ### Lemmas about words -/

theorem wordsAux_ne_nil : ∀ (l acc : List Char), acc ≠ [] → wordsAux l acc ≠ [] := by
  intro l
  induction l with
  | nil => intro acc h; simp [wordsAux, h]
  | cons c cs ih =>
    intro acc h
    cases hw : isWs c
    · simp only [wordsAux, hw]
      simp
      exact ih (c :: acc) (by simp)
    · simp [wordsAux, hw, h]

theorem wordsAux_append_ws {c : Char} (hc : isWs c = true) :
    ∀ (a b acc : List Char), wordsAux (a ++ c :: b) acc = wordsAux a acc ++ wordsOf b := by
  intro a
  induction a with
  | nil =>
    intro b acc
    by_cases h : acc = []
    · simp [wordsAux, hc, h, wordsOf]
    · simp [wordsAux, hc, h, wordsOf]
  | cons d a ih =>
    intro b acc
    cases hw : isWs d
    · simp only [List.cons_append, wordsAux, hw]
      simp
      exact ih b (d :: acc)
    · by_cases h : acc = []
      · simp [wordsAux, hw, h, ih]
      · simp [wordsAux, hw, h, ih]

theorem wordsOf_append_ws {c : Char} (hc : isWs c = true) (a b : List Char) :
    wordsOf (a ++ c :: b) = wordsOf a ++ wordsOf b :=
  wordsAux_append_ws hc a b []

theorem wordsAux_allWs : ∀ (l acc : List Char), (∀ x ∈ l, isWs x = true) →
    wordsAux l acc = if acc = [] then [] else [acc.reverse] := by
  intro l
  induction l with
  | nil => intro acc _; simp [wordsAux]
  | cons c cs ih =>
    intro acc h
    have hc : isWs c = true := h c (by simp)
    have hcs : ∀ x ∈ cs, isWs x = true := fun x hx => h x (by simp [hx])
    by_cases ha : acc = []
    · simp [wordsAux, hc, ha, ih [] hcs]
    · simp [wordsAux, hc, ha, ih [] hcs]

theorem wordsOf_allWs {l : List Char} (h : ∀ x ∈ l, isWs x = true) : wordsOf l = [] := by
  rw [wordsOf, wordsAux_allWs l [] h]
  rfl

theorem wordsOf_append_allWs {a b : List Char} (h : ∀ x ∈ b, isWs x = true) :
    wordsOf (a ++ b) = wordsOf a := by
  cases b with
  | nil => simp
  | cons c b =>
    have hc : isWs c = true := h c (by simp)
    have hb : wordsOf b = [] := wordsOf_allWs (fun x hx => h x (List.mem_cons_of_mem _ hx))
    rw [wordsOf_append_ws hc, hb]
    simp

theorem wordsOf_dropWhile_ws (l : List Char) :
    wordsOf (l.dropWhile (fun c => isWs c)) = wordsOf l := by
  induction l with
  | nil => rfl
  | cons c cs ih =>
    by_cases hw : isWs c = true
    · rw [List.dropWhile_cons, if_pos (by simpa using hw), ih]
      simp [wordsOf, wordsAux, hw]
    · rw [List.dropWhile_cons, if_neg (by simpa using hw)]

theorem wordsOf_ne_nil_of_mem {l : List Char} {c : Char} (hm : c ∈ l)
    (hw : isWs c = false) : wordsOf l ≠ [] := by
  induction l with
  | nil => simp at hm
  | cons a l ih =>
    cases ha : isWs a
    · simp only [wordsOf, wordsAux, ha]
      simp
      exact wordsAux_ne_nil l [a] (by simp)
    · rcases List.mem_cons.mp hm with heq | hm'
      · rw [heq, ha] at hw
        exact absurd hw (by simp)
      · simp only [wordsOf, wordsAux, ha]
        simp
        exact ih hm'

/-! ### Lemmas about trimming -/

/-- The first character, if any, is not whitespace. -/
def noLeadWs (l : List Char) : Prop := ∀ c, l.head? = some c → isWs c = false

/-- The last character, if any, is not whitespace. -/
def noTrailWs (l : List Char) : Prop := ∀ c, l.getLast? = some c → isWs c = false

theorem head?_dropWhile_ws : ∀ (l : List Char),
    noLeadWs (l.dropWhile (fun c => isWs c)) := by
  intro l
  induction l with
  | nil => intro c h; simp at h
  | cons a l ih =>
    intro c h
    by_cases hw : isWs a = true
    · rw [List.dropWhile_cons, if_pos (by simpa using hw)] at h
      exact ih c h
    · rw [List.dropWhile_cons, if_neg (by simpa using hw)] at h
      simp only [List.head?_cons, Option.some.injEq] at h
      subst h
      simpa using hw

theorem getLast?_dropWhile_ws (l : List Char) (c : Char)
    (h : (l.dropWhile (fun c => isWs c)).getLast? = some c) : l.getLast? = some c := by
  induction l with
  | nil => simp at h
  | cons a l ih =>
    by_cases hw : isWs a = true
    · rw [List.dropWhile_cons, if_pos (by simpa using hw)] at h
      have h2 := ih h
      cases l with
      | nil => simp at h2
      | cons b l' => rw [List.getLast?_cons_cons]; exact h2
    · rw [List.dropWhile_cons, if_neg (by simpa using hw)] at h
      exact h

theorem dropWhile_ws_eq_self {l : List Char} (h : noLeadWs l) :
    l.dropWhile (fun c => isWs c) = l := by
  cases l with
  | nil => rfl
  | cons a l =>
    have := h a rfl
    rw [List.dropWhile_cons, if_neg (by simp [this])]

theorem noLeadWs_wsTrim (l : List Char) : noLeadWs (wsTrim l) :=
  head?_dropWhile_ws (wsTrimRight l)

theorem noTrailWs_wsTrimRight (l : List Char) : noTrailWs (wsTrimRight l) := by
  intro c h
  rw [wsTrimRight, List.getLast?_reverse] at h
  exact head?_dropWhile_ws l.reverse c h

theorem noTrailWs_wsTrim (l : List Char) : noTrailWs (wsTrim l) := by
  intro c h
  rw [wsTrim, wsTrimLeft] at h
  exact noTrailWs_wsTrimRight l c (getLast?_dropWhile_ws _ c h)

theorem wsTrimRight_eq_self {l : List Char} (h : noTrailWs l) : wsTrimRight l = l := by
  have hl : noLeadWs l.reverse := by
    intro c hc
    rw [List.head?_reverse] at hc
    exact h c hc
  rw [wsTrimRight, dropWhile_ws_eq_self hl, List.reverse_reverse]

theorem wsTrim_eq_self {l : List Char} (h1 : noLeadWs l) (h2 : noTrailWs l) :
    wsTrim l = l := by
  rw [wsTrim, wsTrimRight_eq_self h2, wsTrimLeft, dropWhile_ws_eq_self h1]

theorem wsTrim_idem (l : List Char) : wsTrim (wsTrim l) = wsTrim l :=
  wsTrim_eq_self (noLeadWs_wsTrim l) (noTrailWs_wsTrim l)

theorem wordsOf_wsTrimRight (l : List Char) : wordsOf (wsTrimRight l) = wordsOf l := by
  have hdecomp : wsTrimRight l ++ (l.reverse.takeWhile (fun c => isWs c)).reverse = l := by
    rw [wsTrimRight, ← List.reverse_append, List.takeWhile_append_dropWhile,
      List.reverse_reverse]
  conv_rhs => rw [← hdecomp]
  rw [wordsOf_append_allWs]
  intro x hx
  rw [List.mem_reverse] at hx
  simpa using List.mem_takeWhile_imp hx

theorem wordsOf_wsTrim (l : List Char) : wordsOf (wsTrim l) = wordsOf l := by
  rw [wsTrim, wsTrimLeft, wordsOf_dropWhile_ws, wordsOf_wsTrimRight]

theorem wsTrim_ne_nil_iff (l : List Char) : wsTrim l ≠ [] ↔ wordsOf l ≠ [] := by
  constructor
  · intro h
    rw [← wordsOf_wsTrim]
    cases hc : wsTrim l with
    | nil => exact absurd hc h
    | cons c rest =>
      have hnw : isWs c = false := noLeadWs_wsTrim l c (by rw [hc]; rfl)
      exact wordsOf_ne_nil_of_mem (l := c :: rest) (by simp) hnw
  · intro h hc
    apply h
    rw [← wordsOf_wsTrim, hc]
    rfl

theorem isTerm_not_ws {c : Char} (h : isTerm c = true) : isWs c = false := by
  have h2 : (c = '.' ∨ c = '!') ∨ c = '?' := by simpa [isTerm] using h
  rcases h2 with (rfl | rfl) | rfl <;> decide

/-! ### Lemmas about the sentence segmentation -/

theorem sentSplitAux_ne_nil : ∀ (l acc : List Char) (b : Bool),
    sentSplitAux l acc b ≠ [] := by
  intro l
  induction l with
  | nil => intro acc b; simp [sentSplitAux]
  | cons c cs ih =>
    intro acc b
    rw [sentSplitAux]
    split
    · exact ih acc true
    · split
      · simp
      · exact ih (c :: acc) false

theorem hasSentenceBoundary_cons {c : Char} {cs : List Char}
    (h : hasSentenceBoundary (c :: cs) = false) :
    hasSentenceBoundary cs = false ∧
      ∀ d, cs.head? = some d → (isTerm c && isWs d) = false := by
  cases cs with
  | nil => exact ⟨rfl, by intro d hd; simp at hd⟩
  | cons d cs' =>
    rw [hasSentenceBoundary] at h
    rcases Bool.or_eq_false_iff.mp h with ⟨h1, h2⟩
    refine ⟨h2, ?_⟩
    intro e he
    simp only [List.head?_cons, Option.some.injEq] at he
    rw [← he]
    exact h1

theorem sentSplitAux_no_boundary : ∀ (l acc : List Char),
    hasSentenceBoundary l = false →
    (∀ c, l.head? = some c → isWs c = true → headIsTerm acc = false) →
    sentSplitAux l acc false = [acc.reverse ++ l] := by
  intro l
  induction l with
  | nil => intro acc _ _; simp [sentSplitAux]
  | cons c cs ih =>
    intro acc hb hh
    rcases hasSentenceBoundary_cons hb with ⟨hb', hpair⟩
    rw [sentSplitAux, if_neg (by simp)]
    cases hw : isWs c
    · rw [if_neg (by simp [hw])]
      rw [ih (c :: acc) hb' ?_]
      · simp
      · intro d hd hwd
        have := hpair d hd
        rw [hwd] at this
        simpa [headIsTerm] using this
    · rw [if_neg (by simp [hw, hh c rfl hw])]
      rw [ih (c :: acc) hb' ?_]
      · simp
      · intro d hd hwd
        have := hpair d hd
        rw [hwd] at this
        simpa [headIsTerm] using this

theorem sentSplit_no_boundary {l : List Char} (hb : hasSentenceBoundary l = false) :
    sentSplit l = [l] := by
  rw [sentSplit, sentSplitAux_no_boundary l [] hb (fun _ _ _ => rfl)]
  simp

theorem sentSplitAux_dropLast_term : ∀ (l acc : List Char) (b : Bool),
    ∀ p ∈ (sentSplitAux l acc b).dropLast,
      ∃ c, p.getLast? = some c ∧ isTerm c = true := by
  intro l
  induction l with
  | nil => intro acc b p hp; simp [sentSplitAux] at hp
  | cons c cs ih =>
    intro acc b p hp
    rw [sentSplitAux] at hp
    split at hp
    · exact ih acc true p hp
    · split at hp
      · next hcond =>
        have hne := sentSplitAux_ne_nil cs [] true
        rw [List.dropLast_cons_of_ne_nil hne] at hp
        rcases List.mem_cons.mp hp with heq | hp'
        · subst heq
          have hterm : headIsTerm acc = true := (Bool.and_eq_true_iff.mp hcond).2
          cases acc with
          | nil => simp [headIsTerm] at hterm
          | cons p0 acc' =>
            refine ⟨p0, ?_, by simpa [headIsTerm] using hterm⟩
            rw [List.reverse_cons, List.getLast?_concat]
        · exact ih [] true p hp'
      · exact ih (c :: acc) false p hp

theorem sentSplitAux_words : ∀ (l acc : List Char) (b : Bool), (b = true → acc = []) →
    ((sentSplitAux l acc b).map wordsOf).flatten = wordsOf (acc.reverse ++ l) := by
  intro l
  induction l with
  | nil => intro acc b _; simp [sentSplitAux]
  | cons c cs ih =>
    intro acc b hb
    rw [sentSplitAux]
    split
    · next h1 =>
      have hw : isWs c = true := (Bool.and_eq_true_iff.mp h1).2
      have ha : acc = [] := hb (Bool.and_eq_true_iff.mp h1).1
      subst ha
      rw [ih [] true (fun _ => rfl)]
      simp [wordsOf, wordsAux, hw]
    · split
      · next h2 =>
        have hw : isWs c = true := (Bool.and_eq_true_iff.mp h2).1
        simp only [List.map_cons, List.flatten_cons]
        rw [ih [] true (fun _ => rfl)]
        rw [wordsOf_append_ws hw]
        simp
      · rw [ih (c :: acc) false (by simp)]
        simp

theorem sentSplit_words (l : List Char) :
    ((sentSplit l).map wordsOf).flatten = wordsOf l := by
  have := sentSplitAux_words l [] false (by simp)
  simpa using this

/-! ### jsSplitWs agrees with wordsOf on trimmed nonempty text -/

theorem getLast?_cons_of_ne_nil {c : Char} {cs : List Char} (h : cs ≠ []) :
    (c :: cs).getLast? = cs.getLast? := by
  cases cs with
  | nil => exact absurd rfl h
  | cons d cs' => rw [List.getLast?_cons_cons]

theorem jsSplitWsAux_eq_wordsAux : ∀ (l acc : List Char) (inRun : Bool),
    (inRun = true → acc = []) →
    (l = [] → acc ≠ []) →
    (∀ c, l.getLast? = some c → isWs c = false) →
    (inRun = false → acc = [] → ∀ c, l.head? = some c → isWs c = false) →
    jsSplitWsAux l acc inRun = wordsAux l acc := by
  intro l
  induction l with
  | nil =>
    intro acc inRun _ hne _ _
    have := hne rfl
    simp [jsSplitWsAux, wordsAux, this]
  | cons c cs ih =>
    intro acc inRun hR hne hlast hhead
    cases hw : isWs c
    · -- non-whitespace: both push onto the accumulator
      simp only [jsSplitWsAux, wordsAux, hw]
      simp
      refine ih (c :: acc) false (by simp) (by simp) ?_ (by simp)
      intro d hd
      cases cs with
      | nil => simp at hd
      | cons e cs' => exact hlast d (by rwa [getLast?_cons_of_ne_nil (by simp)])
    · -- whitespace character
      have hcs : cs ≠ [] := by
        intro h
        subst h
        have := hlast c rfl
        rw [hw] at this
        simp at this
      have hlast' : ∀ d, cs.getLast? = some d → isWs d = false := by
        intro d hd
        exact hlast d (by rwa [getLast?_cons_of_ne_nil hcs])
      cases hR2 : inRun
      · -- not inside a run: acc must be nonempty, else the text has leading whitespace
        have hacc : acc ≠ [] := by
          intro h
          have := hhead hR2 h c rfl
          rw [hw] at this
          simp at this
        simp only [jsSplitWsAux, wordsAux, hw, hacc]
        simp [hacc]
        exact ih [] true (fun _ => rfl) (fun h => absurd h hcs) hlast' (by simp)
      · -- inside a run: the accumulator is empty and both sides skip
        have hacc : acc = [] := hR hR2
        subst hacc
        simp only [jsSplitWsAux, wordsAux, hw]
        simp
        exact ih [] true (fun _ => rfl) (fun h => absurd h hcs) hlast' (by simp)

theorem jsSplitWs_eq_wordsOf {l : List Char} (hne : l ≠ []) (h1 : noLeadWs l)
    (h2 : noTrailWs l) : jsSplitWs l = wordsOf l :=
  jsSplitWsAux_eq_wordsAux l [] false (by simp) (fun h => absurd h hne) h2
    (fun _ _ => h1)

/-! ### Invariants of the chunk accumulation loop -/

/-- Emitted indices so far are `0..n-1` and the counter continues at `n`. -/
def IdxOk (st : ChunkState) : Prop :=
  st.chunks.map Chunk.index = List.range st.chunks.length ∧
    st.index = st.chunks.length

theorem idxOk_step (csz ov : Nat) (st : ChunkState) (s : List Char) (h : IdxOk st) :
    IdxOk (chunkStep csz ov st s) := by
  rcases h with ⟨h1, h2⟩
  rw [chunkStep]
  split
  · constructor
    · simp [h1, h2, List.range_succ]
    · simp [h2]
  · exact ⟨h1, h2⟩

theorem idxOk_fold (csz ov : Nat) : ∀ (us : List (List Char)) (st : ChunkState),
    IdxOk st → IdxOk (us.foldl (chunkStep csz ov) st) := by
  intro us
  induction us with
  | nil => intro st h; exact h
  | cons u us ih => intro st h; exact ih _ (idxOk_step csz ov st u h)

theorem idxOk_finish (st : ChunkState) (h : IdxOk st) :
    (chunkFinish st).map Chunk.index = List.range (chunkFinish st).length := by
  rcases h with ⟨h1, h2⟩
  rw [chunkFinish]
  split
  · exact h1
  · simp [h1, h2, List.range_succ]

/-- A well-formed emitted chunk: nonempty trimmed text whose length is the
recorded character count. -/
def ChunkOk (c : Chunk) : Prop :=
  c.text ≠ [] ∧ wsTrim c.text = c.text ∧ c.charCount = c.text.length

theorem chunkOk_fold (csz ov : Nat) : ∀ (us : List (List Char)) (st : ChunkState),
    (∀ c ∈ st.chunks, ChunkOk c) →
    (us ≠ [] → st.current = [] ∨ wordsOf st.current ≠ []) →
    (∀ u ∈ us.dropLast, wordsOf u ≠ []) →
    ∀ c ∈ chunkFinish (us.foldl (chunkStep csz ov) st), ChunkOk c := by
  intro us
  induction us with
  | nil =>
    intro st h1 _ _ c hc
    rw [List.foldl_nil, chunkFinish] at hc
    split at hc
    · exact h1 c hc
    · next hne =>
      rcases List.mem_append.mp hc with hc1 | hc2
      · exact h1 c hc1
      · rcases List.mem_singleton.mp hc2 with rfl
        exact ⟨hne, wsTrim_idem _, rfl⟩
  | cons u us ih =>
    intro st h1 h2 h3 c hc
    rw [List.foldl_cons] at hc
    have hcur := h2 (by simp)
    refine ih (chunkStep csz ov st u) ?_ ?_ ?_ c hc
    · intro c' hc'
      rw [chunkStep] at hc'
      split at hc'
      · next hcond =>
        simp only at hc'
        rcases List.mem_append.mp hc' with hx | hx
        · exact h1 c' hx
        · rcases List.mem_singleton.mp hx with rfl
          have hcne : st.current ≠ [] := by
            intro h
            rw [h] at hcond
            simp at hcond
          have hwne : wordsOf st.current ≠ [] := hcur.resolve_left hcne
          exact ⟨(wsTrim_ne_nil_iff _).mpr hwne, wsTrim_idem _, rfl⟩
      · exact h1 c' hc'
    · intro hus
      right
      have hu : wordsOf u ≠ [] := by
        apply h3 u
        cases us with
        | nil => exact absurd rfl hus
        | cons a l => simp
      rw [chunkStep]
      split
      · simp only
        rw [wordsOf_append_ws (by decide : isWs ' ' = true)]
        simp [hu]
      · simp only
        by_cases hce : st.current = []
        · simpa [hce] using hu
        · have harr : st.current ++ (if st.current = [] then [] else [' ']) ++ u =
              st.current ++ ' ' :: u := by
            rw [if_neg hce]
            simp
          rw [harr, wordsOf_append_ws (by decide : isWs ' ' = true)]
          simp [hu]
    · intro u' hu'
      apply h3
      cases us with
      | nil => simp at hu'
      | cons a l => exact List.mem_cons_of_mem _ hu'

/-- All units of the segmentation except possibly the last contain a word
(they end in terminal punctuation). -/
theorem sentSplit_dropLast_words (t : List Char) :
    ∀ u ∈ (sentSplit t).dropLast, wordsOf u ≠ [] := by
  intro u hu
  rcases sentSplitAux_dropLast_term t [] false u hu with ⟨d, hd1, hd2⟩
  exact wordsOf_ne_nil_of_mem (List.mem_of_mem_getLast? hd1) (isTerm_not_ws hd2)

/-! ### Word content carried into the output -/

/-- All words already emitted in chunks, followed by the words of the
accumulating buffer. -/
def outWords (st : ChunkState) : List (List Char) :=
  (st.chunks.map (fun c => wordsOf c.text)).flatten ++ wordsOf st.current

theorem outWords_step (csz ov : Nat) (st : ChunkState) (s : List Char) :
    (outWords st ++ wordsOf s).Sublist (outWords (chunkStep csz ov st s)) := by
  rw [chunkStep]
  split
  · rw [outWords, outWords]
    simp only [List.map_append, List.flatten_append, List.map_cons, List.map_nil,
      List.flatten_cons, List.flatten_nil]
    rw [wordsOf_wsTrim, wordsOf_append_ws (by decide : isWs ' ' = true)]
    simp [List.append_assoc]
  · rw [outWords, outWords]
    simp only
    by_cases hce : st.current = []
    · simp [hce, wordsOf, wordsAux]
    · have harr : st.current ++ (if st.current = [] then [] else [' ']) ++ s =
          st.current ++ ' ' :: s := by
        rw [if_neg hce]
        simp
      rw [harr, wordsOf_append_ws (by decide : isWs ' ' = true)]
      simp [List.append_assoc]

theorem outWords_fold (csz ov : Nat) : ∀ (us : List (List Char)) (st : ChunkState),
    (outWords st ++ (us.map wordsOf).flatten).Sublist
      (outWords (us.foldl (chunkStep csz ov) st)) := by
  intro us
  induction us with
  | nil => intro st; simp
  | cons u us ih =>
    intro st
    have h1 := (outWords_step csz ov st u).append (List.Sublist.refl ((us.map wordsOf).flatten))
    have h2 := ih (chunkStep csz ov st u)
    refine List.Sublist.trans ?_ h2
    simpa [List.append_assoc] using h1

theorem outWords_finish (st : ChunkState) :
    ((chunkFinish st).map (fun c => wordsOf c.text)).flatten = outWords st := by
  rw [chunkFinish, outWords]
  split
  · next h =>
    have hw : wordsOf st.current = [] := by
      rw [← wordsOf_wsTrim, h]
      rfl
    simp [hw]
  · simp [wordsOf_wsTrim]

theorem wordsOf_joinSpace : ∀ (ls : List (List Char)),
    wordsOf (joinSpace ls) = (ls.map wordsOf).flatten := by
  intro ls
  induction ls with
  | nil => rfl
  | cons x ls ih =>
    cases ls with
    | nil => simp [joinSpace]
    | cons y rest =>
      rw [joinSpace, wordsOf_append_ws (by decide : isWs ' ' = true), ih]
      simp

/-! ### Closed-form evaluations of the loop on degenerate unit lists -/

theorem chunkStep_nil_current (csz ov : Nat) (s : List Char) :
    chunkStep csz ov { chunks := [], current := [], index := 0 } s =
      { chunks := [], current := s, index := 0 } := by
  rw [chunkStep, if_neg (by simp)]
  simp

theorem chunkText_nil (csz ov : Nat) : chunkText [] csz ov = [] := by
  rw [chunkText, show sentSplit [] = [[]] from rfl, chunkUnits, List.foldl_cons,
    List.foldl_nil, chunkStep_nil_current]
  rfl

theorem chunkText_no_boundary {t : List Char} (csz ov : Nat)
    (hb : hasSentenceBoundary t = false) (hne : wsTrim t ≠ []) :
    chunkText t csz ov =
      [{ text := wsTrim t, index := 0, charCount := (wsTrim t).length }] := by
  rw [chunkText, sentSplit_no_boundary hb, chunkUnits, List.foldl_cons,
    List.foldl_nil, chunkStep_nil_current, chunkFinish, if_neg hne]
  simp

/-! ### The claims -/

/-- Claim C1.  The claim states that an `overlapChars` of 0 carries no text
into the next buffer.  The code computes `words.slice(-Math.floor(overlap / 5))`,
and in JavaScript `slice(-0)` is `slice(0)`: when `floor(overlap / 5) = 0` the
entire closed buffer is carried into the next chunk.  On
`"Aa bb. Cc."` with `chunkSize = 7`, `overlap = 0`, the second chunk repeats
the whole first chunk instead of sharing nothing with it. -/
theorem chunk_overlap_zero_carries_whole_buffer :
    chunkText ("Aa bb. Cc.").data 7 0 =
      [{ text := ("Aa bb.").data, index := 0, charCount := 6 },
       { text := ("Aa bb. Cc.").data, index := 1, charCount := 10 }] := by
  decide

/-- Claim C2, counterexample.  The claim says the buffer closes exactly when
appending the unit separated by a single space would exceed `maxChunkChars`.
The code tests `current.length + sentence.length > chunkSize` without the
space: on `"ab. cd."` with `chunkSize = 6` the lengths are `3 + 1 + 3 = 7 > 6`
counting the space, yet the code appends (3 + 3 = 6 is not over) and returns
a single 7-character chunk, while the spec-worded chunker returns two. -/
theorem chunk_close_space_cex :
    chunkText ("ab. cd.").data 6 0 =
      [{ text := ("ab. cd.").data, index := 0, charCount := 7 }] ∧
    chunkTextSpec ("ab. cd.").data 6 0 =
      [{ text := ("ab.").data, index := 0, charCount := 3 },
       { text := ("cd.").data, index := 1, charCount := 3 }] := by
  exact ⟨by decide, by decide⟩

/-- Claim C2, amended: the buffer closes exactly when it is non-empty and
`buffer.length + unit.length > maxChunkChars`, the single joining space not
being counted in the overflow test.  Stated observationally: a two-unit text
yields two chunks precisely when the unpadded sum of lengths exceeds
`maxChunkChars`, and one chunk otherwise. -/
theorem chunk_close_no_space_in_test (chunkSize overlap : Nat) (u v : List Char)
    (hu : wordsOf u ≠ []) (hv : wordsOf v ≠ []) :
    (chunkUnits chunkSize overlap [u, v]).length =
      if chunkSize < u.length + v.length then 2 else 1 := by
  have hune : u ≠ [] := by
    intro h
    rw [h] at hu
    exact hu rfl
  have hvtrim : ∀ w : List Char, wsTrim (w ++ ' ' :: v) ≠ [] := by
    intro w
    apply (wsTrim_ne_nil_iff _).mpr
    rw [wordsOf_append_ws (by decide : isWs ' ' = true)]
    simp [hv]
  rw [chunkUnits, List.foldl_cons, List.foldl_cons, List.foldl_nil,
    chunkStep_nil_current]
  by_cases hlt : chunkSize < u.length + v.length
  · rw [if_pos hlt]
    rw [chunkStep, if_pos ⟨hlt, List.length_pos.mpr hune⟩]
    rw [chunkFinish]
    simp only
    rw [if_neg (hvtrim _)]
    simp
  · rw [if_neg hlt]
    have s2 : chunkStep chunkSize overlap { chunks := [], current := u, index := 0 } v =
        { chunks := [], current := u ++ ' ' :: v, index := 0 } := by
      rw [chunkStep, if_neg (fun hcon => hlt hcon.1)]
      simp [hune]
    rw [s2, chunkFinish]
    simp only
    rw [if_neg (hvtrim u)]
    simp

/-- Witness for the amended C2 at `u = "ab."`, `v = "cd."`, `chunkSize = 6`:
the sum without the space is 6, not over the limit, so a single chunk. -/
theorem chunk_close_no_space_in_test_witness :
    wordsOf ("ab.").data ≠ [] ∧ wordsOf ("cd.").data ≠ [] ∧
    (chunkUnits 6 0 [("ab.").data, ("cd.").data]).length =
      if 6 < ("ab.").data.length + ("cd.").data.length then 2 else 1 :=
  ⟨by decide, by decide,
    chunk_close_no_space_in_test 6 0 _ _ (by decide) (by decide)⟩

/-- Claim C3, counterexample.  The claim says any text with no
sentence-terminal punctuation followed by whitespace yields exactly one
chunk.  A whitespace-only text has no such boundary yet yields zero chunks,
because the final trimmed buffer is empty and is dropped. -/
theorem chunk_whitespace_only_cex :
    hasSentenceBoundary (" ").data = false ∧ chunkText (" ").data 5 3 = [] := by
  exact ⟨by decide, by decide⟩

/-- Claim C3, amended: empty input yields the empty chunk sequence, and a
text with no sentence boundary and non-empty trim yields exactly one chunk
(whitespace-only text yields zero, not one).  The embedded chunker is a
total function, so no error is signalled for any input. -/
theorem chunk_degenerate_inputs (chunkSize overlap : Nat) (h : 0 < chunkSize) :
    chunkText [] chunkSize overlap = [] ∧
    ∀ t, hasSentenceBoundary t = false → wsTrim t ≠ [] →
      chunkText t chunkSize overlap =
        [{ text := wsTrim t, index := 0, charCount := (wsTrim t).length }] :=
  ⟨chunkText_nil chunkSize overlap,
   fun _ hb hne => chunkText_no_boundary chunkSize overlap hb hne⟩

/-- Witness for the amended C3 at `chunkSize = 5`, `overlap = 2`, text
`"abc"`. -/
theorem chunk_degenerate_inputs_witness :
    0 < 5 ∧ chunkText [] 5 2 = [] ∧
    chunkText ("abc").data 5 2 =
      [{ text := wsTrim ("abc").data, index := 0,
         charCount := (wsTrim ("abc").data).length }] :=
  ⟨by decide, (chunk_degenerate_inputs 5 2 (by decide)).1,
    (chunk_degenerate_inputs 5 2 (by decide)).2 ("abc").data (by decide) (by decide)⟩

/-- Claim C4, counterexample.  The claim says `wordCount` is 0 when the
collapsed plain text is empty.  In JavaScript `"".split(/\s+/)` is `[""]`,
so the code reports 1. -/
theorem wordCount_empty_cex : plainTextOf [] = [] ∧ wordCount [] = 1 :=
  ⟨rfl, rfl⟩

/-- Claim C4, amended: `wordCount` equals the number of whitespace-delimited
tokens of the collapsed plain-text content when that content is non-empty,
and 1 (not 0) when it is empty. -/
theorem wordCount_tokens (textContent : List Char) :
    wordCount textContent =
      if plainTextOf textContent = [] then 1
      else (wordsOf (plainTextOf textContent)).length := by
  by_cases h : plainTextOf textContent = []
  · rw [if_pos h, wordCount, h]
    rfl
  · rw [if_neg h, wordCount,
      jsSplitWs_eq_wordsOf h (noLeadWs_wsTrim _) (noTrailWs_wsTrim _)]

/-- Claim C5: no sentence content is dropped, reordered, or mutated other
than by whitespace normalization: the word sequence of the input text is an
order-preserving sublist of the word sequence of the chunk texts
concatenated in index order (the extra words are the duplicated overlap
regions). -/
theorem chunk_preserves_words (t : List Char) (chunkSize overlap : Nat)
    (h : 0 < chunkSize) :
    (wordsOf t).Sublist
      (wordsOf (joinSpace ((chunkText t chunkSize overlap).map Chunk.text))) := by
  rw [wordsOf_joinSpace, List.map_map, chunkText, chunkUnits,
    show (wordsOf ∘ Chunk.text) = (fun c => wordsOf c.text) from rfl,
    outWords_finish]
  have h1 := outWords_fold chunkSize overlap (sentSplit t)
    { chunks := [], current := [], index := 0 }
  rw [show outWords { chunks := [], current := [], index := 0 } = [] from rfl,
    List.nil_append, sentSplit_words] at h1
  exact h1

/-- Witness for C5 at `"Aa bb. Cc."`, `chunkSize = 7`, `overlap = 0`. -/
theorem chunk_preserves_words_witness :
    0 < 7 ∧ (wordsOf ("Aa bb. Cc.").data).Sublist
      (wordsOf (joinSpace ((chunkText ("Aa bb. Cc.").data 7 0).map Chunk.text))) :=
  ⟨by decide, chunk_preserves_words ("Aa bb. Cc.").data 7 0 (by decide)⟩

/-- Claim C6: the chunk indices form `0..N-1`: zero-based, contiguous,
strictly increasing, no duplicates or gaps. -/
theorem chunk_indices_range (t : List Char) (chunkSize overlap : Nat)
    (h : 0 < chunkSize) :
    (chunkText t chunkSize overlap).map Chunk.index =
      List.range (chunkText t chunkSize overlap).length := by
  rw [chunkText, chunkUnits]
  exact idxOk_finish _ (idxOk_fold chunkSize overlap (sentSplit t) _ ⟨rfl, rfl⟩)

/-- Witness for C6 at `"a. b."`, `chunkSize = 4`, `overlap = 0`. -/
theorem chunk_indices_range_witness :
    0 < 4 ∧ (chunkText ("a. b.").data 4 0).map Chunk.index =
      List.range (chunkText ("a. b.").data 4 0).length :=
  ⟨by decide, chunk_indices_range ("a. b.").data 4 0 (by decide)⟩

/-- Claim C7: every emitted chunk's text is non-empty and already trimmed
(so non-empty after trimming); an empty trailing accumulation is dropped by
the final `if (current.trim())` guard and never emitted. -/
theorem chunk_texts_nonempty_trimmed (t : List Char) (chunkSize overlap : Nat)
    (h : 0 < chunkSize) :
    ∀ c ∈ chunkText t chunkSize overlap, c.text ≠ [] ∧ wsTrim c.text = c.text := by
  intro c hc
  rw [chunkText, chunkUnits] at hc
  have hok := chunkOk_fold chunkSize overlap (sentSplit t)
    { chunks := [], current := [], index := 0 } (by intro x hx; simp at hx)
    (fun _ => Or.inl rfl) (sentSplit_dropLast_words t) c hc
  exact ⟨hok.1, hok.2.1⟩

/-- Witness for C7 at `"a. b."`, `chunkSize = 4`, `overlap = 0`. -/
theorem chunk_texts_nonempty_trimmed_witness :
    0 < 4 ∧ ∀ c ∈ chunkText ("a. b.").data 4 0, c.text ≠ [] ∧ wsTrim c.text = c.text :=
  ⟨by decide, chunk_texts_nonempty_trimmed ("a. b.").data 4 0 (by decide)⟩

/-- Claim C8: a text that is a single sentence unit (no terminal punctuation
followed by whitespace) longer than `maxChunkChars` is emitted as one
oversized chunk holding the whole (trimmed) sentence; it is never split or
truncated. -/
theorem oversized_sentence_one_chunk (t : List Char) (chunkSize overlap : Nat)
    (hcs : 0 < chunkSize) (hb : hasSentenceBoundary t = false)
    (hne : wsTrim t ≠ []) (hlong : chunkSize < t.length) :
    chunkText t chunkSize overlap =
      [{ text := wsTrim t, index := 0, charCount := (wsTrim t).length }] :=
  chunkText_no_boundary chunkSize overlap hb hne

/-- Witness for C8 at `"abcdefgh"`, `chunkSize = 3`. -/
theorem oversized_sentence_one_chunk_witness :
    (0 < 3 ∧ hasSentenceBoundary ("abcdefgh").data = false ∧
      wsTrim ("abcdefgh").data ≠ [] ∧ 3 < ("abcdefgh").data.length) ∧
    chunkText ("abcdefgh").data 3 9 =
      [{ text := wsTrim ("abcdefgh").data, index := 0,
         charCount := (wsTrim ("abcdefgh").data).length }] :=
  ⟨⟨by decide, by decide, by decide, by decide⟩,
    oversized_sentence_one_chunk ("abcdefgh").data 3 9 (by decide) (by decide)
      (by decide) (by decide)⟩

/-- Claim C9: every emitted chunk's `metadata.charCount` equals the length
of the chunk's trimmed text. -/
theorem chunk_charCount_is_trimmed_length (t : List Char) (chunkSize overlap : Nat)
    (h : 0 < chunkSize) :
    ∀ c ∈ chunkText t chunkSize overlap, c.charCount = (wsTrim c.text).length := by
  intro c hc
  rw [chunkText, chunkUnits] at hc
  have hok := chunkOk_fold chunkSize overlap (sentSplit t)
    { chunks := [], current := [], index := 0 } (by intro x hx; simp at hx)
    (fun _ => Or.inl rfl) (sentSplit_dropLast_words t) c hc
  rw [hok.2.1]
  exact hok.2.2

/-- Witness for C9 at `"a. b."`, `chunkSize = 4`, `overlap = 0`. -/
theorem chunk_charCount_is_trimmed_length_witness :
    0 < 4 ∧ ∀ c ∈ chunkText ("a. b.").data 4 0, c.charCount = (wsTrim c.text).length :=
  ⟨by decide, chunk_charCount_is_trimmed_length ("a. b.").data 4 0 (by decide)⟩

/-- Claim C10: with `outputFormat = json` and a positive chunk size the
record's markdown field is populated but the chunker is fed the collapsed
plain text; only `outputFormat = markdown` feeds the markdown string to the
chunker (`text` also chunks the plain text). -/
theorem json_chunks_plain_text (md tc : List Char) (chunkSize overlap : Nat)
    (h : 0 < chunkSize) :
    (assemblePage OutputFormat.json md tc chunkSize overlap).markdown = some md ∧
    (assemblePage OutputFormat.json md tc chunkSize overlap).chunks =
      some (chunkText (plainTextOf tc) chunkSize overlap) ∧
    (assemblePage OutputFormat.markdown md tc chunkSize overlap).chunks =
      some (chunkText md chunkSize overlap) ∧
    (assemblePage OutputFormat.text md tc chunkSize overlap).chunks =
      some (chunkText (plainTextOf tc) chunkSize overlap) := by
  refine ⟨?_, ?_, ?_, ?_⟩ <;> simp [assemblePage, h]

/-- Witness for C10 at a concrete markdown/plain-text pair. -/
theorem json_chunks_plain_text_witness :
    0 < 9 ∧
    (assemblePage OutputFormat.json ("# t").data ("t x").data 9 0).markdown =
      some ("# t").data ∧
    (assemblePage OutputFormat.json ("# t").data ("t x").data 9 0).chunks =
      some (chunkText (plainTextOf ("t x").data) 9 0) ∧
    (assemblePage OutputFormat.markdown ("# t").data ("t x").data 9 0).chunks =
      some (chunkText ("# t").data 9 0) ∧
    (assemblePage OutputFormat.text ("# t").data ("t x").data 9 0).chunks =
      some (chunkText (plainTextOf ("t x").data) 9 0) :=
  ⟨by decide, json_chunks_plain_text ("# t").data ("t x").data 9 0 (by decide)⟩

end Crawler
